import Mathlib

/-!
Verification of the curation pipeline in `backend/app/services/curation.py`
(class `CurationService`) against its specification.

The Python service is embedded shallowly: each method becomes a Lean
function over explicit data.  Strings are Lean `String`s (Python `str`
methods are modelled over `String.data`, with ASCII semantics for
case-mapping and whitespace, which is what every constant in the source
uses), timestamps are `Int` seconds, and floats are exact rationals `ℚ`
(every numeric constant in the source is a small decimal).
-/

namespace Curation

/-! ### String helpers (Python `str` semantics) -/

/-- Python `s.lower()`, modelled per character (ASCII case mapping). -/
def toLowerStr (s : String) : String := ⟨s.data.map Char.toLower⟩

/-- Python `sub in l` on character lists: `sub` occurs contiguously in `l`. -/
def listHas (sub : List Char) : List Char → Bool
  | [] => sub.isPrefixOf ([] : List Char)
  | c :: t => sub.isPrefixOf (c :: t) || listHas sub t

/-- Python `sub in s` (substring containment). -/
def strHas (s sub : String) : Bool := listHas sub.data s.data

/-- Python `s.endswith(post)`. -/
def strEndsWith (s post : String) : Bool := post.data.isSuffixOf s.data

/-- Drop trailing whitespace of a character list (the `\s*` that the
title regexes absorb before a removed suffix). -/
def dropTrailWs (l : List Char) : List Char :=
  (l.reverse.dropWhile Char.isWhitespace).reverse

/-- Worker for Python `s.split()`: one character at a time, `cur`
holding the current word reversed. -/
def splitWsAux (cur : List Char) : List Char → List (List Char)
  | [] => if cur.isEmpty then [] else [cur.reverse]
  | c :: t =>
    if c.isWhitespace then
      if cur.isEmpty then splitWsAux [] t else cur.reverse :: splitWsAux [] t
    else splitWsAux (c :: cur) t

/-- Python `s.split()` (no separator): maximal runs of non-whitespace
characters, with all whitespace discarded. -/
def splitWs (l : List Char) : List (List Char) := splitWsAux [] l

/-- Python `' '.join(ws)`: the pieces joined with single spaces. -/
def joinSpace : List (List Char) → List Char
  | [] => []
  | [w] => w
  | w :: ws => w ++ ' ' :: joinSpace ws

/-- Python `' '.join(l.split())`: collapse internal whitespace runs to
single spaces and strip the ends (curation.py:239). -/
def collapseWsL (l : List Char) : List Char := joinSpace (splitWs l)

/-- `' '.join(title.split())` on strings. -/
def collapseWs (s : String) : String := ⟨collapseWsL s.data⟩

/-! ### Raw feed entries

A `feedparser` entry as consumed by the service.  Optional fields use
`Option`; fields whose absence is indistinguishable from the empty value
at every use site in the source (`title`, `link`, `summary`,
`description`, `author`) are plain strings with `""` for "absent".
`content` is the list of the `value` strings of `entry.content` (for
`feedparser` that attribute is always a list of dicts, so the
`str(entry.content)` fallback of curation.py:159 is unreachable).
Timestamps are seconds (`datetime(*parsed[:6])` is order-isomorphic to
its timestamp). -/
structure RawEntry where
  title : String := ""
  link : String := ""
  summary : String := ""
  content : List String := []
  description : String := ""
  author : String := ""
  /-- `entry.author_detail.name` when `entry.author_detail` exists and
  has a `name` attribute (returned even when empty, curation.py:176). -/
  authorDetailName : Option String := none
  dcCreator : Option String := none
  /-- `entry.media_content` as (type, url) pairs. -/
  mediaContent : List (String × String) := []
  /-- The `url` fields of `entry.media_thumbnail`. -/
  mediaThumbnailUrls : List String := []
  /-- `entry.enclosures` as (type, href) pairs. -/
  enclosures : List (String × String) := []
  /-- `entry.links` as (rel, type, href) triples. -/
  links : List (String × String × String) := []
  published_parsed : Option Int := none
  updated_parsed : Option Int := none
  /-- `entry.id` when present. -/
  entryId : Option String := none
deriving Repr, DecidableEq

/-! ### Curated article records (the dicts built at curation.py:122-135) -/

structure Article where
  title : String := ""
  url : String := ""
  source : String := ""
  category : String := ""
  description : String := ""
  published_date : Option Int := none
  author : String := ""
  guid : String := ""
  quality_score : ℚ := 0
  image_url : String := ""
deriving Repr, DecidableEq

/-! ### Configuration constants (curation.py:20-25) -/

def articles_per_category : Nat := 15
def max_age_hours : Int := 48
def min_description_length : Nat := 50
def similarity_threshold : ℚ := 0.7

/-! ### Field extraction (curation.py:146-205) -/

/-- `extract_author` (curation.py:171-179). -/
def extract_author (e : RawEntry) : String :=
  if e.author ≠ "" then e.author
  else match e.authorDetailName with
    | some n => n
    | none => match e.dcCreator with
      | some c => c
      | none => ""

/-- `extract_image` (curation.py:181-205): first matching media-content
entry, else first media thumbnail, else first image enclosure, else the
first link with rel "enclosure" and an image type, else `""`. -/
def extract_image (e : RawEntry) : String :=
  match e.mediaContent.find? (fun m => strHas (toLowerStr m.1) "image") with
  | some m => m.2
  | none =>
    match e.mediaThumbnailUrls with
    | u :: _ => u
    | [] =>
      match e.enclosures.find? (fun enc => strHas (toLowerStr enc.1) "image") with
      | some enc => enc.2
      | none =>
        match e.links.find? (fun l => l.1 == "enclosure" && strHas (toLowerStr l.2.1) "image") with
        | some l => l.2.2
        | none => ""

/-- The tag-dropping part of BeautifulSoup's `get_text` in `clean_html`:
characters between `<` and `>` are removed.  (The source also drops the
text content of script/style elements, which this model keeps; no claim
depends on tag stripping.)  The boolean state is "inside a tag". -/
def stripTagsAux : Bool → List Char → List Char
  | _, [] => []
  | false, '<' :: t => stripTagsAux true t
  | false, c :: t => c :: stripTagsAux false t
  | true, '>' :: t => stripTagsAux false t
  | true, _ :: t => stripTagsAux true t

/-- Split a character list at every occurrence of `c`, keeping empty
pieces (Python `text.splitlines()` modelled on `'\n'`; trailing-empty
differences are erased by the later empty-chunk filter). -/
def splitOnChar (c : Char) : List Char → List (List Char)
  | [] => [[]]
  | x :: t =>
    if x == c then [] :: splitOnChar c t
    else match splitOnChar c t with
      | [] => [[x]]
      | p :: ps => (x :: p) :: ps

/-- Python `line.split("  ")`: split at each non-overlapping occurrence
of two consecutive spaces, scanning left to right. -/
def splitTwoSpaces : List Char → List (List Char)
  | ' ' :: ' ' :: t => [] :: splitTwoSpaces t
  | c :: t =>
    match splitTwoSpaces t with
    | [] => [[c]]
    | p :: ps => (c :: p) :: ps
  | [] => [[]]

/-- Python `s.strip()` on character lists. -/
def stripL (l : List Char) : List Char :=
  dropTrailWs (l.dropWhile Char.isWhitespace)

/-- `clean_html` (curation.py:394-414): strip markup, then split into
lines, strip each, split each line on double spaces, strip those
phrases, and rejoin the non-empty phrases with single spaces. -/
def clean_html (text : String) : String :=
  if text = "" then ""
  else
    let stripped := stripTagsAux false text.data
    let lines := (splitOnChar '\n' stripped).map stripL
    let chunks := (lines.map (fun line => (splitTwoSpaces line).map stripL)).flatten
    ⟨List.intercalate [' '] (chunks.filter (fun c => c ≠ []))⟩

/-- `extract_best_description` (curation.py:146-169): prefer `summary`,
then the first `content` value, then `description`; strip HTML; truncate
to 497 characters plus `"..."` when longer than 500. -/
def extract_best_description (e : RawEntry) : String :=
  let d := if e.summary ≠ "" then e.summary
           else if e.content ≠ [] then e.content.headD ""
           else e.description
  let d := clean_html d
  if d.length > 500 then ⟨d.data.take 497 ++ "...".data⟩ else d

/-! ### Quality scoring (curation.py:207-234) -/

/-- `calculate_quality_score`: incremental additions exactly as in the
source, capped with `min(score, 1.0)`. -/
def calculate_quality_score (e : RawEntry) (description : String) : ℚ :=
  let score : ℚ := 0
  let score := if description.length > min_description_length then score + 0.3 else score
  let score := if description.length > 150 then score + 0.2 else score
  let score := if extract_author e ≠ "" then score + 0.2 else score
  let score := if extract_image e ≠ "" then score + 0.1 else score
  let score := if e.published_parsed.isSome then score + 0.1 else score
  let score := if e.title.length > 20 && e.title.length < 200 then score + 0.1 else score
  min score 1

/-! ### Paywall heuristic (curation.py:372-392) -/

def paywall_indicators : List String :=
  ["subscriber", "subscription", "paywall", "premium",
   "exclusive", "members only", "sign up to read",
   "limited access", "register to continue"]

/-- `is_likely_paywalled`: any indicator occurs in the lower-cased title
or summary, or the (non-empty, lower-cased) summary is shorter than 100
characters and ends with `"..."`. -/
def is_likely_paywalled (e : RawEntry) : Bool :=
  let title := toLowerStr e.title
  let summary := toLowerStr e.summary
  paywall_indicators.any (fun ind => strHas title ind || strHas summary ind) ||
    (summary ≠ "" && summary.length < 100 && strEndsWith summary "...")

/-! ### Title cleaning (curation.py:236-243) -/

/-- `re.sub(r'\s*\|\s*.*$', '', title)` on the already
whitespace-collapsed title (which contains no newline, so `.*$` reaches
the end of the string): everything from the first `|`, together with the
whitespace run immediately before it, is removed. -/
def dropPipeSuffix (s : String) : String :=
  if s.data.contains '|' then ⟨dropTrailWs (s.data.takeWhile (· ≠ '|'))⟩ else s

/-- Whether `\s*-\s*[A-Z][a-z]+\s*\d{4}` matches the whole of `l` (all
character classes are deterministic here, so greedy matching needs no
backtracking). -/
def matchMonthYear (l : List Char) : Bool :=
  match l.dropWhile Char.isWhitespace with
  | '-' :: r =>
    match r.dropWhile Char.isWhitespace with
    | c :: r2 =>
      let rest := r2.dropWhile Char.isLower
      let digits := rest.dropWhile Char.isWhitespace
      c.isUpper && !(r2.takeWhile Char.isLower).isEmpty &&
        digits.length == 4 && digits.all Char.isDigit
    | [] => false
  | _ => false

/-- `re.sub(r'\s*-\s*[A-Z][a-z]+\s*\d{4}$', '', title)`: remove a
trailing "- Month Year" suffix, starting at the leftmost position from
which the pattern matches through to the end. -/
def dropMonthYearSuffix (s : String) : String :=
  match (List.range (s.data.length + 1)).find? (fun p => matchMonthYear (s.data.drop p)) with
  | some p => ⟨s.data.take p⟩
  | none => s

/-- `clean_title` (curation.py:236-243); the final Python `.strip()` is
`stripL`. -/
def clean_title (title : String) : String :=
  let t := collapseWs title
  let t := dropPipeSuffix t
  let t := dropMonthYearSuffix t
  ⟨stripL t.data⟩

/-! ### Lexical similarity: `difflib.SequenceMatcher(None, a, b).ratio()`
(used at curation.py:300) -/

/-- Autojunk "popular" elements of `b` (difflib `__chain_b`): when `b`
has at least 200 elements, those occurring more than `len(b)//100 + 1`
times are excluded from match seeding. -/
def popularChars (b : List Char) : List Char :=
  if 200 ≤ b.length then b.dedup.filter (fun c => b.length / 100 + 1 < b.count c)
  else []

/-- `a[i+t] = b[j+t]` for all `t < k`, inside the window, with every
matched `b` character non-popular: a diagonal chain usable by the
`find_longest_match` dynamic program. -/
def isChainAt (a b pop : List Char) (alo ahi blo bhi i j k : Nat) : Bool :=
  decide (alo ≤ i) && decide (i + k ≤ ahi) && decide (blo ≤ j) && decide (j + k ≤ bhi) &&
  (List.range k).all (fun t =>
    match a.get? (i + t), b.get? (j + t) with
    | some ca, some cb => ca == cb && !pop.contains cb
    | _, _ => false)

def chainExists (a b pop : List Char) (alo ahi blo bhi k : Nat) : Bool :=
  (List.range (ahi + 1)).any (fun i =>
    (List.range (bhi + 1)).any (fun j => isChainAt a b pop alo ahi blo bhi i j k))

def charsEq (a b : List Char) (i j : Nat) : Bool :=
  match a.get? i, b.get? j with
  | some x, some y => x == y
  | _, _ => false

/-- The left extension loop of `find_longest_match` (with `isjunk=None`
the junk test never blocks an extension): while `alo < i`, `blo < j` and
`a[i-1] = b[j-1]`, step the block one position left.  Structurally
recursive on `i`. -/
def extendLeft (a b : List Char) (alo blo : Nat) : Nat → Nat → Nat → Nat × Nat × Nat
  | 0, j, k => (0, j, k)
  | i + 1, j, k =>
    if alo < i + 1 ∧ blo < j ∧ charsEq a b i (j - 1) = true then
      extendLeft a b alo blo i (j - 1) (k + 1)
    else (i + 1, j, k)

/-- The right extension loop of `find_longest_match`: while
`i + k < ahi`, `j + k < bhi` and `a[i+k] = b[j+k]`, grow the block.
`fuel` only drives the structural recursion; every step needs
`i + k < ahi` and increments `k`, so `ahi` iterations always suffice. -/
def extendRightGo (a b : List Char) (ahi bhi i j : Nat) : Nat → Nat → Nat
  | 0, k => k
  | fuel + 1, k =>
    if i + k < ahi ∧ j + k < bhi ∧ charsEq a b (i + k) (j + k) = true then
      extendRightGo a b ahi bhi i j fuel (k + 1)
    else k

def extendRight (a b : List Char) (ahi bhi i j k : Nat) : Nat :=
  extendRightGo a b ahi bhi i j ahi k

/-- difflib `find_longest_match` on `a[alo:ahi]` vs `b[blo:bhi]` with
`isjunk=None`: the longest popular-free matching block — earliest in
`a`, then earliest in `b`, per the function's documented contract —
extended over directly adjacent equal characters. -/
def find_longest_match (a b pop : List Char) (alo ahi blo bhi : Nat) : Nat × Nat × Nat :=
  let ks := (List.range (min (ahi - alo) (bhi - blo) + 1)).filter
    (fun k => k != 0 && chainExists a b pop alo ahi blo bhi k)
  let K := ks.foldr max 0
  if K = 0 then (alo, blo, 0)
  else
    let i := ((List.range (ahi + 1)).filter (fun i =>
      (List.range (bhi + 1)).any (fun j => isChainAt a b pop alo ahi blo bhi i j K))).headD alo
    let j := ((List.range (bhi + 1)).filter (fun j =>
      isChainAt a b pop alo ahi blo bhi i j K)).headD blo
    match extendLeft a b alo blo i j K with
    | (i, j, k) => (i, j, extendRight a b ahi bhi i j k)

/-- Total matched size `M` of difflib's `ratio = 2M/T`: recursive
divide-and-recurse at the longest matching block (`get_matching_blocks`).
`fuel` only drives termination; `a.length + b.length + 1` always
suffices because each recursive call strictly shrinks one window. -/
def matchedAux (a b pop : List Char) : Nat → Nat → Nat → Nat → Nat → Nat
  | 0, _, _, _, _ => 0
  | fuel + 1, alo, ahi, blo, bhi =>
    match find_longest_match a b pop alo ahi blo bhi with
    | (i, j, k) =>
      if k = 0 then 0
      else matchedAux a b pop fuel alo i blo j + k +
           matchedAux a b pop fuel (i + k) ahi (j + k) bhi

/-- `difflib.SequenceMatcher(None, a, b).ratio()` as an exact rational. -/
def ratio (a b : List Char) : ℚ :=
  let pop := popularChars b
  let M := matchedAux a b pop (a.length + b.length + 1) 0 a.length 0 b.length
  if a.length + b.length = 0 then 1
  else 2 * (M : ℚ) / ((a.length + b.length : Nat) : ℚ)

/-! ### Deduplication (curation.py:281-310) -/

/-- The per-article keep test of `remove_duplicates`: the url is not a
previously kept url and no previously kept lower-cased title is similar
above the threshold.  `kept` plays the role of `unique` (most recent
first); `seen_urls` and `seen_titles` hold exactly its urls and
lower-cased titles, since the source adds to all three together. -/
def keepCheck (kept : List Article) (a : Article) : Bool :=
  !(decide (a.url ∈ kept.map Article.url)) &&
  !(kept.any (fun k =>
    decide (similarity_threshold < ratio (toLowerStr a.title).data (toLowerStr k.title).data)))

def dedupGo (kept : List Article) : List Article → List Article
  | [] => []
  | a :: rest => if keepCheck kept a then a :: dedupGo (a :: kept) rest else dedupGo kept rest

/-- `remove_duplicates` (curation.py:281-310).  (`if not articles:
return []` is subsumed: the fold returns `[]` on `[]`.) -/
def remove_duplicates (articles : List Article) : List Article := dedupGo [] articles

/-! ### Ranking (curation.py:263-277) -/

/-- The recency factor of the sort key at curation.py:269-271: 1.0 when
a published date exists and lies within the last 6 hours, else 0.3. -/
def recency_bonus (now : Int) (a : Article) : ℚ :=
  match a.published_date with
  | some t => if now - t < 3600 * 6 then 1 else 0.3
  | none => 0.3

/-- The sort key at curation.py:267-272: 70% quality, 30% recency. -/
def compositeScore (now : Int) (a : Article) : ℚ :=
  a.quality_score * 0.7 + recency_bonus now a * 0.3

/-- Stable insert for a descending sort: the new element goes before the
first element whose key is ≤ its own, hence after every earlier element
with an equal key. -/
def insertDesc (key : Article → ℚ) (a : Article) : List Article → List Article
  | [] => [a]
  | b :: t => if key b ≤ key a then a :: b :: t else b :: insertDesc key a t

/-- `list.sort(key=..., reverse=True)` (curation.py:266-274): Python
documents this as a stable descending sort, and a stable sort is
extensionally unique, so stable insertion sort embeds it. -/
def sortDescBy (key : Article → ℚ) : List Article → List Article
  | [] => []
  | a :: t => insertDesc key a (sortDescBy key t)

/-- Sort by composite score, then take the per-category cap
(curation.py:266-277). -/
def rank_select (now : Int) (l : List Article) : List Article :=
  (sortDescBy (compositeScore now) l).take articles_per_category

/-! ### Category configuration (news_sources.py:89-100) and matcher -/

def CATEGORY_MAPPINGS : List (String × List String) :=
  [("International News", ["international"]),
   ("Portugal", ["portugal", "europe"]),
   ("Spain", ["spain", "europe"]),
   ("Germany", ["germany", "europe"]),
   ("Japan", ["japan", "international"]),
   ("Technology", ["technology", "tech", "tech-policy"]),
   ("Apple & Productivity AI", ["apple", "ai"]),
   ("Soccer", ["soccer", "football"]),
   ("US Sports", ["sports"]),
   ("Expat/Immigration", ["europe", "international"])]

def anyKw (combined : String) (kws : List String) : Bool :=
  kws.any (fun kw => strHas combined kw)

/-- `matches_category_filter` (curation.py:312-370).  The keyword string
`"espaÃ±a"` reproduces the source file byte-for-byte (it is mojibake in
the original). -/
def matches_category_filter (a : Article) (category : String) : Bool :=
  let title_lower := toLowerStr a.title
  let desc_lower := toLowerStr a.description
  let combined := title_lower ++ " " ++ desc_lower
  if category = "Portugal" then
    anyKw combined ["portugal", "portuguese", "lisbon", "porto", "madeira", "azores"]
  else if category = "Spain" then
    anyKw combined ["spain", "spanish", "madrid", "barcelona", "valencia", "seville", "espaÃ±a"]
  else if category = "Germany" then
    anyKw combined ["germany", "german", "berlin", "munich", "frankfurt", "hamburg", "deutsch"]
  else if category = "Japan" then
    anyKw combined ["japan", "japanese", "tokyo", "osaka", "kyoto", "nippon"]
  else if category = "US to Europe Expat" then
    anyKw combined ["expat", "expatriate", "immigration", "visa", "residency", "moving to",
                    "relocat", "american in", "us citizen", "tax", "remote work"]
  else if category = "Apple & Productivity AI" then
    anyKw combined ["apple", "mac", "iphone", "ipad", "ios", "macos", "app store",
                    "productivity", "notion", "ai tool", "chatgpt", "claude", "copilot",
                    "automation", "workflow", "artificial intelligence"]
  else if category = "Soccer" then
    anyKw combined ["soccer", "football", "premier league", "la liga", "bundesliga",
                    "champions league", "world cup", "uefa", "fifa"]
  else if category = "US Football" then
    anyKw combined ["nfl", "football", "touchdown", "quarterback", "super bowl",
                    "draft", "yards", "patriots", "cowboys", "chiefs", "bills"] &&
    !anyKw combined ["soccer", "premier", "uefa", "fifa"]
  else if category = "US Basketball" then
    anyKw combined ["nba", "basketball", "lakers", "celtics", "warriors", "lebron",
                    "three-pointer", "dunk", "playoffs", "finals"]
  else if category = "US Baseball" then
    anyKw combined ["mlb", "baseball", "yankees", "dodgers", "world series",
                    "home run", "pitcher", "batting", "innings"]
  else true

/-! ### Per-entry normalization and feed fetching (curation.py:86-144) -/

/-- Timestamp resolution (curation.py:102-109): explicit published
timestamp, else updated timestamp, else "now". -/
def resolve_published (now : Int) (e : RawEntry) : Int :=
  ((e.published_parsed).orElse (fun _ => e.updated_parsed)).getD now

/-- The per-entry body of the `fetch_rss_feed` loop (curation.py:100-139):
staleness filter, paywall filter, normalization into an `Article`,
quality gate. -/
def process_entry (now : Int) (source category : String) (e : RawEntry) : Option Article :=
  let published_date := resolve_published now e
  if published_date < now - max_age_hours * 3600 then none
  else if is_likely_paywalled e then none
  else
    let description := extract_best_description e
    let a : Article :=
      { title := clean_title e.title
        url := e.link
        source := source
        category := category
        description := description
        published_date := some published_date
        author := extract_author e
        guid := e.entryId.getD e.link
        quality_score := calculate_quality_score e description
        image_url := extract_image e }
    if a.quality_score > 0.3 then some a else none

/-- `fetch_rss_feed` (curation.py:86-144) applied to an already parsed
feed: the first 30 entries are normalized and filtered in order. -/
def fetch_rss_feed (now : Int) (source category : String) (entries : List RawEntry) : List Article :=
  (entries.take 30).filterMap (process_entry now source category)

/-- The outcome of retrieving and parsing one configured feed URL: the
parsed entry list, or a failure (network error, timeout or unparseable
document — an exception raised inside `feedparser.parse` and caught at
curation.py:141-142, or any exception caught at curation.py:80-82). -/
inductive FetchOutcome where
  | ok : List RawEntry → FetchOutcome
  | failure : String → FetchOutcome
deriving Repr, DecidableEq

/-- One configured (source, sub-category) feed of `NEWS_SOURCES`
together with what the network returned for it this run. -/
structure FeedSpec where
  source : String
  category : String
  outcome : FetchOutcome
deriving Repr, DecidableEq

/-- Articles contributed by one feed: none at all when its fetch
failed. -/
def fetchFeedArticles (now : Int) (f : FeedSpec) : List Article :=
  match f.outcome with
  | .ok entries => fetch_rss_feed now f.source f.category entries
  | .failure _ => []

/-- `fetch_all_articles` (curation.py:67-84): every configured feed in
iteration order; a failed feed contributes nothing and aborts nothing
(the function is total — no fetch error escapes to the caller). -/
def fetch_all_articles (now : Int) (feeds : List FeedSpec) : List Article :=
  (feeds.map (fetchFeedArticles now)).flatten

/-- `curate_articles` (curation.py:245-279): per PRD category, collect
matching articles in order, deduplicate, rank and truncate. -/
def curate_articles (now : Int) (articles : List Article) : List (String × List Article) :=
  CATEGORY_MAPPINGS.map (fun rule =>
    let category_articles := articles.filter (fun a =>
      rule.2.contains a.category && matches_category_filter a rule.1)
    (rule.1, rank_select now (remove_duplicates category_articles)))

/-! ## Properties of the stable descending sort -/

theorem insertDesc_perm (key : Article → ℚ) (a : Article) (l : List Article) :
    (insertDesc key a l).Perm (a :: l) := by
  induction l with
  | nil => exact List.Perm.refl _
  | cons b t ih =>
    simp only [insertDesc]
    split
    · exact List.Perm.refl _
    · exact (ih.cons b).trans (List.Perm.swap a b t)

theorem sortDescBy_perm (key : Article → ℚ) (l : List Article) :
    (sortDescBy key l).Perm l := by
  induction l with
  | nil => exact List.Perm.refl _
  | cons a t ih => exact (insertDesc_perm key a (sortDescBy key t)).trans (ih.cons a)

theorem insertDesc_sorted (key : Article → ℚ) (a : Article) (l : List Article)
    (h : l.Pairwise (fun x y => key y ≤ key x)) :
    (insertDesc key a l).Pairwise (fun x y => key y ≤ key x) := by
  induction l with
  | nil => simp [insertDesc]
  | cons b t ih =>
    rcases List.pairwise_cons.mp h with ⟨hb, ht⟩
    simp only [insertDesc]
    split
    · rename_i hle
      refine List.pairwise_cons.mpr ⟨?_, h⟩
      intro x hx
      rcases List.mem_cons.mp hx with rfl | hx
      · exact hle
      · exact (hb x hx).trans hle
    · rename_i hgt
      refine List.pairwise_cons.mpr ⟨?_, ih ht⟩
      intro x hx
      rcases List.mem_cons.mp ((insertDesc_perm key a t).mem_iff.mp hx) with rfl | hx
      · exact le_of_not_le hgt
      · exact hb x hx

theorem sortDescBy_sorted (key : Article → ℚ) (l : List Article) :
    (sortDescBy key l).Pairwise (fun x y => key y ≤ key x) := by
  induction l with
  | nil => simp [sortDescBy]
  | cons a t ih => exact insertDesc_sorted key a _ ih

theorem insertDesc_filter_key (key : Article → ℚ) (a : Article) (l : List Article) (c : ℚ)
    (h : l.Pairwise (fun x y => key y ≤ key x)) :
    (insertDesc key a l).filter (fun x => key x == c) =
      if key a == c then a :: l.filter (fun x => key x == c)
      else l.filter (fun x => key x == c) := by
  induction l with
  | nil => by_cases hac : key a == c <;> simp [insertDesc, List.filter_cons, hac]
  | cons b t ih =>
    rcases List.pairwise_cons.mp h with ⟨hb, ht⟩
    simp only [insertDesc]
    split
    · by_cases hac : key a == c <;> simp [List.filter_cons, hac]
    · rename_i hgt
      have hab : key a < key b := lt_of_not_le hgt
      by_cases hac : key a == c
      · have hbc : (key b == c) = false := by
          apply beq_eq_false_iff_ne.mpr
          intro hbc
          rw [beq_iff_eq] at hac
          exact absurd hab (by rw [hac, hbc]; exact lt_irrefl c)
        simp [List.filter_cons, hbc, ih ht, hac]
      · simp [List.filter_cons, ih ht, hac]

theorem sortDescBy_filter_key (key : Article → ℚ) (l : List Article) (c : ℚ) :
    (sortDescBy key l).filter (fun x => key x == c) = l.filter (fun x => key x == c) := by
  induction l with
  | nil => rfl
  | cons a t ih =>
    rw [sortDescBy, insertDesc_filter_key key a _ c (sortDescBy_sorted key t), ih,
      List.filter_cons]

/-! ## Properties of deduplication -/

theorem dedupGo_idem (l : List Article) :
    ∀ kept, dedupGo kept (dedupGo kept l) = dedupGo kept l := by
  induction l with
  | nil => intro kept; rfl
  | cons a rest ih =>
    intro kept
    by_cases h : keepCheck kept a = true
    · simp only [dedupGo, h, if_true]
      exact congrArg (a :: ·) (ih (a :: kept))
    · simp only [dedupGo, h, if_false, Bool.false_eq_true]
      exact ih kept

theorem mem_dedupGo {b : Article} : ∀ (l kept : List Article), b ∈ dedupGo kept l → b ∈ l := by
  intro l
  induction l with
  | nil => intro kept h; exact absurd h (List.not_mem_nil b)
  | cons a rest ih =>
    intro kept h
    by_cases hk : keepCheck kept a = true
    · rw [dedupGo, if_pos hk] at h
      rcases List.mem_cons.mp h with rfl | h
      · exact List.mem_cons_self _ _
      · exact List.mem_cons_of_mem a (ih _ h)
    · rw [dedupGo, if_neg hk] at h
      exact List.mem_cons_of_mem a (ih _ h)

theorem keepCheck_iff (kept : List Article) (a : Article) :
    keepCheck kept a = true ↔
      a.url ∉ kept.map Article.url ∧
      ∀ k ∈ kept,
        ¬ (similarity_threshold < ratio (toLowerStr a.title).data (toLowerStr k.title).data) := by
  simp [keepCheck, List.any_eq_true]

theorem keepCheck_anti {kept kept' : List Article} {a : Article}
    (hsub : ∀ x ∈ kept', x ∈ kept) (h : keepCheck kept a = true) :
    keepCheck kept' a = true := by
  rw [keepCheck_iff] at h ⊢
  refine ⟨?_, fun k hk => h.2 k (hsub k hk)⟩
  intro hmem
  rcases List.mem_map.mp hmem with ⟨x, hx, hxe⟩
  exact h.1 (List.mem_map.mpr ⟨x, hsub x hx, hxe⟩)

theorem keepCheck_of_mem_dedupGo {b : Article} :
    ∀ (l kept : List Article), b ∈ dedupGo kept l → keepCheck kept b = true := by
  intro l
  induction l with
  | nil => intro kept h; exact absurd h (List.not_mem_nil b)
  | cons a rest ih =>
    intro kept h
    by_cases hk : keepCheck kept a = true
    · rw [dedupGo, if_pos hk] at h
      rcases List.mem_cons.mp h with rfl | h
      · exact hk
      · exact keepCheck_anti (fun x hx => List.mem_cons_of_mem a hx) (ih _ h)
    · rw [dedupGo, if_neg hk] at h
      exact ih _ h

theorem dedupGo_pairwise :
    ∀ (l kept : List Article), (dedupGo kept l).Pairwise (fun a b => keepCheck [a] b = true) := by
  intro l
  induction l with
  | nil => intro kept; exact List.Pairwise.nil
  | cons a rest ih =>
    intro kept
    by_cases hk : keepCheck kept a = true
    · rw [dedupGo, if_pos hk]
      refine List.pairwise_cons.mpr ⟨?_, ih (a :: kept)⟩
      intro b hb
      exact keepCheck_anti (by intro x hx; rw [List.mem_singleton] at hx; rw [hx]; exact List.mem_cons_self a kept)
        (keepCheck_of_mem_dedupGo _ _ hb)
    · rw [dedupGo, if_neg hk]
      exact ih kept

theorem remove_duplicates_pairwise_urls (xs : List Article) :
    (remove_duplicates xs).Pairwise (fun a b => a.url ≠ b.url) := by
  refine (dedupGo_pairwise xs []).imp ?_
  intro a b h
  have := (keepCheck_iff [a] b).mp h
  intro hab
  exact this.1 (by simp [hab])

theorem pairwise_ne_filter_length {l : List Article}
    (h : l.Pairwise (fun a b => a.url ≠ b.url)) (u : String) :
    (l.filter (fun a => a.url == u)).length ≤ 1 := by
  induction l with
  | nil => simp
  | cons a t ih =>
    rcases List.pairwise_cons.mp h with ⟨ha, ht⟩
    rw [List.filter_cons]
    by_cases hau : a.url == u
    · have : t.filter (fun a => a.url == u) = [] := by
        rw [List.filter_eq_nil_iff]
        intro b hb hbu
        rw [beq_iff_eq] at hau hbu
        exact ha b hb (hau.trans hbu.symm)
      simp [hau, this]
    · simpa [hau] using ih ht

/-! ## Claim theorems: deduplication and ranking -/

/-- **C3.**  The Deduplicator is idempotent: `remove_duplicates` applied
to its own output returns that output unchanged. -/
theorem claim3_remove_duplicates_idempotent (xs : List Article) :
    remove_duplicates (remove_duplicates xs) = remove_duplicates xs :=
  dedupGo_idem xs []

/-- **C5.**  For every input list and every url `u`, at most one article
with url `u` appears in the output of `remove_duplicates` — also when an
earlier article bearing `u` was skipped as a near-duplicate, since urls
are recorded as seen only for kept articles and kept urls are pairwise
distinct. -/
theorem claim5_at_most_one_url (xs : List Article) (u : String) :
    ((remove_duplicates xs).filter (fun a => a.url == u)).length ≤ 1 :=
  pairwise_ne_filter_length (remove_duplicates_pairwise_urls xs) u

/-- **C2.**  On every deduplicated per-category list, the
Ranker/Selector returns the list sorted descending by the composite
score `0.7 * quality_score + 0.3 * recency_bonus` (`recency_bonus` is 1
within 6 hours of run start, else 0.3), the sort is stable (for every
key value, the equal-key articles appear exactly in their post-dedup
order), and the result is truncated to the first 15, so no category of
`curate_articles` ever exceeds the cap of 15. -/
theorem claim2_rank_select_spec (now : Int) (ded articles : List Article) :
    (sortDescBy (compositeScore now) ded).Perm ded ∧
    (rank_select now ded).Pairwise
      (fun a b => compositeScore now b ≤ compositeScore now a) ∧
    (∀ c : ℚ,
      (sortDescBy (compositeScore now) ded).filter (fun a => compositeScore now a == c) =
        ded.filter (fun a => compositeScore now a == c)) ∧
    rank_select now ded = (sortDescBy (compositeScore now) ded).take articles_per_category ∧
    (curate_articles now articles).all
      (fun p => decide (p.2.length ≤ articles_per_category)) = true := by
  refine ⟨sortDescBy_perm _ _, ?_, fun c => sortDescBy_filter_key _ _ c, rfl, ?_⟩
  · exact List.Pairwise.sublist (List.take_sublist _ _) (sortDescBy_sorted _ _)
  · simp only [List.all_eq_true, decide_eq_true_eq, curate_articles, List.mem_map]
    rintro p ⟨rule, hrule, rfl⟩
    simp [rank_select]

/-- The later article of the C4 counterexample pair: the similarity of
the two titles is exactly 7/10. -/
def dupSecond : Article := { title := "aaaaaaabbbbbb", url := "u2" }

/-- The earlier article of the C4 counterexample pair. -/
def dupFirst : Article := { title := "aaaaaaa", url := "u1" }

/-- **C4 counterexample.**  Two articles whose lower-cased titles have
similarity ratio exactly 0.7 — hence ≥ 0.7 as the claim requires — but
`remove_duplicates` keeps **both**, because the source compares with a
strict `>` (curation.py:301), not `≥`. -/
theorem claim4_counterexample :
    similarity_threshold ≤
      ratio (toLowerStr dupSecond.title).data (toLowerStr dupFirst.title).data ∧
    remove_duplicates [dupFirst, dupSecond] = [dupFirst, dupSecond] := by
  constructor
  · with_unfolding_all decide
  · with_unfolding_all decide

/-- **C4 amended.**  No two survivors of `remove_duplicates` are near
duplicates: whenever the earlier of two articles with lower-cased title
similarity strictly above 0.7 is kept, the later one is skipped.  (At
similarity exactly 0.7, or when the earlier article was itself skipped,
the later article may survive — see the counterexample.) -/
theorem claim4_amended_no_near_duplicates (xs : List Article) :
    (remove_duplicates xs).Pairwise (fun a b =>
      ¬ (similarity_threshold <
          ratio (toLowerStr b.title).data (toLowerStr a.title).data)) := by
  refine (dedupGo_pairwise xs []).imp ?_
  intro a b h
  exact ((keepCheck_iff [a] b).mp h).2 a (List.mem_singleton_self a)

/-- A raw entry with no title and no link whose summary is 151
characters: its quality score is 0.3 + 0.2 = 1/2 > 0.3, so the quality
gate admits it although url and title are empty. -/
def entryEmptyTitleUrl : RawEntry := { summary := ⟨List.replicate 151 'x'⟩ }

set_option maxRecDepth 100000 in
/-- **C1 counterexample.**  A full run over one feed with one entry
whose title and link are missing: the entry passes every filter
(fresh, not paywalled, quality 1/2 > 0.3) and `curate_articles` places
an article with **empty url and empty title** in "International News",
refuting the claimed non-emptiness invariants.  (The quality score does
lie in [0,1]; see the amended theorem.) -/
theorem claim1_counterexample :
    (curate_articles 0
        (fetch_rss_feed 0 "BBC News" "international" [entryEmptyTitleUrl])).headD ("", []) =
      ("International News",
        [{ title := "", url := "", source := "BBC News", category := "international",
           description := ⟨List.replicate 151 'x'⟩, published_date := some 0,
           author := "", guid := "", quality_score := 1/2, image_url := "" }]) := by
  with_unfolding_all decide

/-! ## C6: quality score formula and quality gate -/

/-- Modelled from the spec's words (§4.2 "Quality score"): the sum of
the six independent contributions, capped at 1.0. -/
def quality_score_spec (e : RawEntry) (description : String) : ℚ :=
  min ((if description.length > 50 then (0.3 : ℚ) else 0) +
       (if description.length > 150 then (0.2 : ℚ) else 0) +
       (if extract_author e ≠ "" then (0.2 : ℚ) else 0) +
       (if extract_image e ≠ "" then (0.1 : ℚ) else 0) +
       (if e.published_parsed.isSome then (0.1 : ℚ) else 0) +
       (if e.title.length > 20 && e.title.length < 200 then (0.1 : ℚ) else 0)) 1

/-- **C6.**  The quality score is exactly the capped sum of the six
claimed contributions (the "+0.1 for an explicit published timestamp"
fires precisely when `published_parsed` is present, curation.py:226),
and an entry that reaches the quality gate — i.e. is neither stale nor
paywalled — is admitted into the result of `fetch_rss_feed` exactly
when its score is strictly greater than 0.3. -/
theorem claim6_quality_formula_and_gate (now : Int) (src cat : String) (e : RawEntry)
    (hfresh : ¬ (resolve_published now e < now - max_age_hours * 3600))
    (hpw : is_likely_paywalled e = false) :
    (∀ d : String, calculate_quality_score e d = quality_score_spec e d) ∧
    ((process_entry now src cat e).isSome ↔
      (0.3 : ℚ) < calculate_quality_score e (extract_best_description e)) := by
  constructor
  · intro d
    simp only [calculate_quality_score, quality_score_spec, min_description_length]
    split_ifs <;> norm_num
  · simp only [process_entry, if_neg hfresh, hpw, Bool.false_eq_true, if_false]
    split
    · rename_i hg
      simp [hg]
    · rename_i hg
      simp [hg]

/-! ## C7: paywall heuristic and exclusion -/

/-- Modelled from the spec's words (§4.2 "Paywall heuristic" and C7): a
fixed keyword occurs — case-insensitively, i.e. in the lower-cased
text — in title or summary; or the summary is shorter than 100
characters and ends with an ellipsis marker.  (Lower-casing changes
neither the length nor the trailing dots.) -/
def paywalled_spec (e : RawEntry) : Prop :=
  (∃ kw ∈ paywall_indicators,
    strHas (toLowerStr e.title) kw = true ∨ strHas (toLowerStr e.summary) kw = true) ∨
  ((toLowerStr e.summary).length < 100 ∧ strEndsWith (toLowerStr e.summary) "..." = true)

/-- **C7.**  `is_likely_paywalled` holds exactly on the claimed
condition; a paywalled entry is never admitted by `fetch_rss_feed`
regardless of its quality score; in particular an entry whose title
contains "paywall" in any case is excluded. -/
theorem claim7_paywall_exclusion (now : Int) (src cat : String) (e : RawEntry) :
    (is_likely_paywalled e = true ↔ paywalled_spec e) ∧
    (is_likely_paywalled e = true → process_entry now src cat e = none) ∧
    (strHas (toLowerStr e.title) "paywall" = true → process_entry now src cat e = none) := by
  have hexcl : is_likely_paywalled e = true → process_entry now src cat e = none := by
    intro h
    simp only [process_entry]
    split
    · rfl
    · simp [h]
  refine ⟨?_, hexcl, ?_⟩
  · simp only [is_likely_paywalled, paywalled_spec, Bool.or_eq_true, List.any_eq_true,
      Bool.and_eq_true, decide_eq_true_eq]
    constructor
    · rintro (h | h)
      · exact Or.inl h
      · exact Or.inr ⟨h.1.2, h.2⟩
    · rintro (h | h)
      · exact Or.inl h
      · by_cases hs : toLowerStr e.summary = ""
        · rw [hs] at h
          exact absurd h.2 (by decide)
        · exact Or.inr ⟨⟨hs, h.1⟩, h.2⟩
  · intro ht
    apply hexcl
    simp only [is_likely_paywalled, Bool.or_eq_true, List.any_eq_true]
    exact Or.inl ⟨"paywall", by simp [paywall_indicators], Or.inl ht⟩

set_option maxRecDepth 100000 in
/-- Concrete instantiation of the C6 theorem: the hypotheses hold for
the fresh, unpaywalled 151-character-summary entry, and both conjuncts
are obtained from the theorem itself. -/
theorem claim6_witness :
    (¬ (resolve_published 0 entryEmptyTitleUrl < 0 - max_age_hours * 3600)) ∧
    is_likely_paywalled entryEmptyTitleUrl = false ∧
    calculate_quality_score entryEmptyTitleUrl "" = quality_score_spec entryEmptyTitleUrl "" ∧
    ((process_entry 0 "BBC News" "international" entryEmptyTitleUrl).isSome ↔
      (0.3 : ℚ) < calculate_quality_score entryEmptyTitleUrl
        (extract_best_description entryEmptyTitleUrl)) := by
  have h := claim6_quality_formula_and_gate 0 "BBC News" "international" entryEmptyTitleUrl
    (by decide) (by decide)
  exact ⟨by decide, by decide, h.1 "", h.2⟩

/-- The C7 witness entry: "paywall" occurs (case-insensitively) in the
title. -/
def paywalledEntry : RawEntry := { title := "PayWall Alert: markets" }

/-- Concrete instantiation of the C7 theorem: the witness entry has
"paywall" in its lower-cased title and is excluded. -/
theorem claim7_witness :
    strHas (toLowerStr paywalledEntry.title) "paywall" = true ∧
    process_entry 0 "Associated Press" "international" paywalledEntry = none := by
  refine ⟨by decide, ?_⟩
  exact (claim7_paywall_exclusion 0 "Associated Press" "international" paywalledEntry).2.2
    (by decide)

/-! ## Quality score bounds -/

theorem calculate_quality_score_bounds (e : RawEntry) (d : String) :
    0 ≤ calculate_quality_score e d ∧ calculate_quality_score e d ≤ 1 := by
  simp only [calculate_quality_score]
  constructor
  · apply le_min _ zero_le_one
    split_ifs <;> norm_num
  · exact min_le_right _ _

theorem process_entry_quality {now : Int} {src cat : String} {e : RawEntry} {a : Article}
    (h : process_entry now src cat e = some a) :
    a.quality_score = calculate_quality_score e (extract_best_description e) := by
  simp only [process_entry] at h
  split at h
  · exact absurd h (by simp)
  · split at h
    · exact absurd h (by simp)
    · split at h
      · rw [← Option.some_inj.mp h]
      · exact absurd h (by simp)

theorem mem_fetch_rss_feed_quality {now : Int} {src cat : String} {entries : List RawEntry}
    {a : Article} (h : a ∈ fetch_rss_feed now src cat entries) :
    0 ≤ a.quality_score ∧ a.quality_score ≤ 1 := by
  simp only [fetch_rss_feed, List.mem_filterMap] at h
  rcases h with ⟨e, _, hpe⟩
  rw [process_entry_quality hpe]
  exact calculate_quality_score_bounds e _

theorem mem_fetch_all_quality {now : Int} {feeds : List FeedSpec} {a : Article}
    (h : a ∈ fetch_all_articles now feeds) :
    0 ≤ a.quality_score ∧ a.quality_score ≤ 1 := by
  simp only [fetch_all_articles, List.mem_flatten, List.mem_map] at h
  rcases h with ⟨l, ⟨f, hf, rfl⟩, ha⟩
  obtain ⟨src, cat, out⟩ := f
  cases out with
  | ok entries =>
    simp only [fetchFeedArticles] at ha
    exact mem_fetch_rss_feed_quality ha
  | failure msg =>
    simp only [fetchFeedArticles] at ha
    exact absurd ha (List.not_mem_nil a)

theorem mem_rank_select {now : Int} {l : List Article} {a : Article}
    (h : a ∈ rank_select now l) : a ∈ l := by
  simp only [rank_select] at h
  exact (sortDescBy_perm (compositeScore now) l).mem_iff.mp (List.mem_of_mem_take h)

/-- **C1 amended.**  Every article in the final per-category output of a
full run (`fetch_all_articles` then `curate_articles`) has its quality
score in [0, 1].  The claimed non-emptiness of url and title does not
hold (see the counterexample): neither the quality gate nor any later
stage inspects them. -/
theorem claim1_amended_quality_in_unit_interval (now : Int) (feeds : List FeedSpec) :
    (curate_articles now (fetch_all_articles now feeds)).all
      (fun p => p.2.all fun a =>
        decide (0 ≤ a.quality_score ∧ a.quality_score ≤ 1)) = true := by
  simp only [List.all_eq_true, decide_eq_true_eq]
  intro p hp a ha
  simp only [curate_articles, List.mem_map] at hp
  rcases hp with ⟨rule, hrule, rfl⟩
  simp only at ha
  have h2 : a ∈ remove_duplicates _ := mem_rank_select ha
  have h3 := mem_dedupGo _ _ h2
  exact mem_fetch_all_quality (List.mem_filter.mp h3).1

/-- **C8.**  A failing feed contributes exactly zero articles, and
`fetch_all_articles` still returns all articles of the other feeds
unchanged; no fetch failure surfaces as an error (the function is total
into `List Article`). -/
theorem claim8_feed_failure_isolated (now : Int) (pre post : List FeedSpec)
    (src cat msg : String) :
    fetch_all_articles now (pre ++ ⟨src, cat, .failure msg⟩ :: post) =
      fetch_all_articles now pre ++ fetch_all_articles now post := by
  simp [fetch_all_articles, fetchFeedArticles]

/-! ## C10: `clean_title` removes everything from the first pipe

Supporting lemmas about `splitWs`, `joinSpace` and `dropTrailWs`. -/

theorem dropWhile_head_false {p : Char → Bool} :
    ∀ {l : List Char} {d : Char} {t : List Char}, l.dropWhile p = d :: t → p d = false := by
  intro l
  induction l with
  | nil => intro d t h; exact absurd h (by simp)
  | cons c l ih =>
    intro d t h
    by_cases hc : p c = true
    · rw [List.dropWhile_cons_of_pos hc] at h
      exact ih h
    · rw [List.dropWhile_cons_of_neg hc] at h
      cases h
      simpa using hc

theorem splitWs_cons_ws {c : Char} {t : List Char} (h : c.isWhitespace = true) :
    splitWs (c :: t) = splitWs t := by
  simp [splitWs, splitWsAux, h]

theorem splitWsAux_chunk {w : List Char} (hw : ∀ x ∈ w, x.isWhitespace = false) :
    ∀ (cur t : List Char), splitWsAux cur (w ++ t) = splitWsAux (w.reverse ++ cur) t := by
  induction w with
  | nil => intro cur t; simp
  | cons x w ih =>
    intro cur t
    have hx : x.isWhitespace = false := hw x (List.mem_cons_self x w)
    have hrec := ih (fun y hy => hw y (List.mem_cons_of_mem x hy)) (x :: cur) t
    simp only [List.cons_append, splitWsAux, hx, Bool.false_eq_true, if_false, List.append_eq]
    rw [hrec]
    congr 1
    simp

theorem splitWs_cons_word {c : Char} {t : List Char} (h : c.isWhitespace = false) :
    splitWs (c :: t) =
      (c :: t.takeWhile (fun x => !x.isWhitespace)) ::
        splitWs (t.dropWhile (fun x => !x.isWhitespace)) := by
  have h1 : splitWs (c :: t) = splitWsAux [c] t := by
    simp [splitWs, splitWsAux, h]
  have htw : ∀ x ∈ t.takeWhile (fun x => !x.isWhitespace), x.isWhitespace = false := by
    intro x hx
    simpa using List.mem_takeWhile_imp hx
  rw [h1]
  conv_lhs => rw [← List.takeWhile_append_dropWhile (fun x => !x.isWhitespace) t]
  rw [splitWsAux_chunk htw [c] _]
  cases hD : t.dropWhile (fun x => !x.isWhitespace) with
  | nil =>
    simp [splitWsAux, splitWs]
  | cons d t' =>
    have hd : d.isWhitespace = true := by
      simpa using dropWhile_head_false hD
    have hne : ((t.takeWhile fun x => !x.isWhitespace).reverse ++ [c]).isEmpty = false := by
      simp [List.isEmpty_iff]
    simp only [splitWsAux, hd, if_true, hne, Bool.false_eq_true, if_false]
    rw [splitWs_cons_ws hd]
    simp [splitWs]

theorem splitWs_all_nonws {w : List Char} (hw : ∀ x ∈ w, x.isWhitespace = false) :
    splitWs w = if w.isEmpty then [] else [w] := by
  cases w with
  | nil => rfl
  | cons c t =>
    have hc : c.isWhitespace = false := hw c (List.mem_cons_self c t)
    have htw : t.takeWhile (fun x => !x.isWhitespace) = t := by
      rw [List.takeWhile_eq_self_iff]
      intro x hx
      simp [hw x (List.mem_cons_of_mem c hx)]
    have hdw : t.dropWhile (fun x => !x.isWhitespace) = [] := by
      rw [List.dropWhile_eq_nil_iff]
      intro x hx
      simp [hw x (List.mem_cons_of_mem c hx)]
    rw [splitWs_cons_word hc, htw, hdw]
    rfl

theorem ne_nil_of_mem_splitWsAux {w : List Char} :
    ∀ (l cur : List Char), w ∈ splitWsAux cur l → w ≠ [] := by
  intro l
  induction l with
  | nil =>
    intro cur h
    simp only [splitWsAux] at h
    split at h
    · exact absurd h (List.not_mem_nil w)
    · rename_i hcur
      rw [List.mem_singleton] at h
      subst h
      simp only [ne_eq, List.reverse_eq_nil_iff]
      simpa [List.isEmpty_iff] using hcur
  | cons c t ih =>
    intro cur h
    simp only [splitWsAux] at h
    split at h
    · split at h
      · exact ih [] h
      · rename_i hcur
        rcases List.mem_cons.mp h with rfl | h
        · simp only [ne_eq, List.reverse_eq_nil_iff]
          simpa [List.isEmpty_iff] using hcur
        · exact ih [] h
    · exact ih (c :: cur) h

theorem mem_splitWsAux_of_mem_cur {c : Char} :
    ∀ (l cur : List Char), c ∈ cur → ∃ w ∈ splitWsAux cur l, c ∈ w := by
  intro l
  induction l with
  | nil =>
    intro cur hc
    refine ⟨cur.reverse, ?_, List.mem_reverse.mpr hc⟩
    simp [splitWsAux, List.isEmpty_iff, List.ne_nil_of_mem hc]
  | cons d t ih =>
    intro cur hc
    by_cases hd : d.isWhitespace = true
    · refine ⟨cur.reverse, ?_, List.mem_reverse.mpr hc⟩
      simp [splitWsAux, hd, List.isEmpty_iff, List.ne_nil_of_mem hc]
    · have hd' : d.isWhitespace = false := by simpa using hd
      obtain ⟨w, hw, hcw⟩ := ih (d :: cur) (List.mem_cons_of_mem d hc)
      exact ⟨w, by simpa [splitWsAux, hd'] using hw, hcw⟩

theorem exists_word_of_mem {c : Char} (hc : c.isWhitespace = false) :
    ∀ (l cur : List Char), c ∈ l → ∃ w ∈ splitWsAux cur l, c ∈ w := by
  intro l
  induction l with
  | nil => intro cur h; exact absurd h (List.not_mem_nil c)
  | cons d t ih =>
    intro cur h
    by_cases hd : d.isWhitespace = true
    · have hcd : c ∈ t := by
        rcases List.mem_cons.mp h with rfl | h
        · rw [hd] at hc; exact absurd hc (by simp)
        · exact h
      obtain ⟨w, hw, hcw⟩ := ih [] hcd
      refine ⟨w, ?_, hcw⟩
      simp only [splitWsAux, hd, if_true]
      split
      · exact hw
      · exact List.mem_cons_of_mem _ hw
    · have hd' : d.isWhitespace = false := by simpa using hd
      rcases List.mem_cons.mp h with rfl | h
      · obtain ⟨w, hw, hcw⟩ := mem_splitWsAux_of_mem_cur t (c :: cur) (List.mem_cons_self c cur)
        exact ⟨w, by simpa [splitWsAux, hd'] using hw, hcw⟩
      · obtain ⟨w, hw, hcw⟩ := ih (d :: cur) h
        exact ⟨w, by simpa [splitWsAux, hd'] using hw, hcw⟩

theorem mem_cur_or_mem_of_mem_splitWsAux {c : Char} {w : List Char} :
    ∀ (l cur : List Char), w ∈ splitWsAux cur l → c ∈ w → c ∈ cur ∨ c ∈ l := by
  intro l
  induction l with
  | nil =>
    intro cur h hcw
    simp only [splitWsAux] at h
    split at h
    · exact absurd h (List.not_mem_nil w)
    · rw [List.mem_singleton] at h
      subst h
      exact Or.inl (List.mem_reverse.mp hcw)
  | cons d t ih =>
    intro cur h hcw
    simp only [splitWsAux] at h
    split at h
    · split at h
      · rcases ih [] h hcw with h' | h'
        · exact absurd h' (List.not_mem_nil c)
        · exact Or.inr (List.mem_cons_of_mem d h')
      · rcases List.mem_cons.mp h with rfl | h
        · exact Or.inl (List.mem_reverse.mp hcw)
        · rcases ih [] h hcw with h' | h'
          · exact absurd h' (List.not_mem_nil c)
          · exact Or.inr (List.mem_cons_of_mem d h')
    · rcases ih (d :: cur) h hcw with h' | h'
      · rcases List.mem_cons.mp h' with rfl | h'
        · exact Or.inr (List.mem_cons_self c t)
        · exact Or.inl h'
      · exact Or.inr (List.mem_cons_of_mem d h')

theorem joinSpace_eq_nil_iff : ∀ {xs : List (List Char)},
    joinSpace xs = [] ↔ xs = [] ∨ xs = [[]] := by
  intro xs
  match xs with
  | [] => simp [joinSpace]
  | [w] => simp [joinSpace]
  | w :: w' :: ws => simp [joinSpace]

theorem mem_joinSpace_of_mem {c : Char} :
    ∀ {xs : List (List Char)} {w : List Char}, w ∈ xs → c ∈ w → c ∈ joinSpace xs := by
  intro xs
  induction xs with
  | nil => simp
  | cons a xs ih =>
    intro w hw hc
    cases xs with
    | nil =>
      rw [List.mem_singleton] at hw
      subst hw
      exact hc
    | cons b ys =>
      rcases List.mem_cons.mp hw with rfl | hw
      · exact List.mem_append.mpr (Or.inl hc)
      · exact List.mem_append.mpr (Or.inr (List.mem_cons_of_mem ' ' (ih hw hc)))

theorem eq_space_or_exists_of_mem_joinSpace {c : Char} :
    ∀ {xs : List (List Char)}, c ∈ joinSpace xs → c = ' ' ∨ ∃ w ∈ xs, c ∈ w := by
  intro xs
  induction xs with
  | nil => simp [joinSpace]
  | cons a xs ih =>
    intro h
    cases xs with
    | nil => exact Or.inr ⟨a, List.mem_singleton_self a, h⟩
    | cons b ys =>
      rcases List.mem_append.mp h with h' | h'
      · exact Or.inr ⟨a, List.mem_cons_self a _, h'⟩
      · rcases List.mem_cons.mp h' with rfl | h'
        · exact Or.inl rfl
        · rcases ih h' with h'' | ⟨w, hw, hcw⟩
          · exact Or.inl h''
          · exact Or.inr ⟨w, List.mem_cons_of_mem a hw, hcw⟩

theorem dropTrailWs_append (xs ys : List Char) :
    dropTrailWs (xs ++ ys) =
      if dropTrailWs ys = [] then dropTrailWs xs else xs ++ dropTrailWs ys := by
  simp only [dropTrailWs, List.reverse_append, List.dropWhile_append]
  by_cases h : ys.reverse.dropWhile Char.isWhitespace = []
  · simp [h, List.isEmpty_iff]
  · simp [h, List.isEmpty_iff, List.reverse_append]

theorem dropTrailWs_of_all_nonws {w : List Char} (hw : ∀ x ∈ w, x.isWhitespace = false) :
    dropTrailWs w = w := by
  have : w.reverse.dropWhile Char.isWhitespace = w.reverse := by
    cases hr : w.reverse with
    | nil => rfl
    | cons d t =>
      have hd : d ∈ w := by
        rw [← List.mem_reverse, hr]
        exact List.mem_cons_self d t
      rw [List.dropWhile_cons_of_neg (by simp [hw d hd])]
  simp [dropTrailWs, this]

/-- `takeWhile` stops exactly at the first failing element. -/
theorem takeWhile_middle {p : Char → Bool} {m : Char} :
    ∀ {xs zs : List Char}, (∀ x ∈ xs, p x = true) → p m = false →
      (xs ++ m :: zs).takeWhile p = xs := by
  intro xs
  induction xs with
  | nil =>
    intro zs _ hm
    exact List.takeWhile_cons_of_neg (by simp [hm])
  | cons x xs ih =>
    intro zs hall hm
    rw [List.cons_append,
      List.takeWhile_cons_of_pos (by exact hall x (List.mem_cons_self x xs))]
    rw [ih (fun y hy => hall y (List.mem_cons_of_mem x hy)) hm]

/-- Key commuting fact for C10: collapsing whitespace and then cutting
at the first `|` (with the whitespace run before it) is the same as
cutting the raw title at its first `|` and then collapsing. -/
theorem collapse_takeWhile_pipe :
    ∀ (l : List Char), '|' ∈ l →
      dropTrailWs ((collapseWsL l).takeWhile (· ≠ '|')) =
        collapseWsL (l.takeWhile (· ≠ '|')) := by
  have main : ∀ (n : Nat) (l : List Char), l.length ≤ n → '|' ∈ l →
      dropTrailWs ((collapseWsL l).takeWhile (· ≠ '|')) =
        collapseWsL (l.takeWhile (· ≠ '|')) := by
    intro n
    induction n with
    | zero =>
      intro l hl hp
      have : l = [] := List.eq_nil_of_length_eq_zero (Nat.le_zero.mp hl)
      subst this
      exact absurd hp (List.not_mem_nil _)
    | succ n ih =>
      intro l hl hp
      cases l with
      | nil => exact absurd hp (List.not_mem_nil _)
      | cons c t =>
        have ht : t.length ≤ n := by simpa using hl
        by_cases hws : c.isWhitespace = true
        · -- whitespace head: both sides drop it
          have hcpipe : c ≠ '|' := by
            intro h; subst h; exact absurd hws (by decide)
          have hpt : '|' ∈ t := by
            rcases List.mem_cons.mp hp with h | h
            · exact absurd h.symm hcpipe
            · exact h
          have h1 : collapseWsL (c :: t) = collapseWsL t := by
            simp [collapseWsL, splitWs_cons_ws hws]
          have h2 : (c :: t).takeWhile (· ≠ '|') = c :: t.takeWhile (· ≠ '|') :=
            List.takeWhile_cons_of_pos (by simpa using hcpipe)
          have h3 : collapseWsL (c :: t.takeWhile (· ≠ '|')) =
              collapseWsL (t.takeWhile (· ≠ '|')) := by
            simp [collapseWsL, splitWs_cons_ws hws]
          rw [h1, h2, h3]
          exact ih t ht hpt
        · -- the head starts a word W = c :: tw
          have hws' : c.isWhitespace = false := by simpa using hws
          set tw := t.takeWhile (fun x => !x.isWhitespace) with htwdef
          set dw := t.dropWhile (fun x => !x.isWhitespace) with hdwdef
          have hsplit : splitWs (c :: t) = (c :: tw) :: splitWs dw := splitWs_cons_word hws'
          have htdecomp : c :: t = (c :: tw) ++ dw := by
            simp [htwdef, hdwdef, List.takeWhile_append_dropWhile]
          have hWnws : ∀ x ∈ c :: tw, x.isWhitespace = false := by
            intro x hx
            rcases List.mem_cons.mp hx with rfl | hx
            · exact hws'
            · rw [htwdef] at hx
              have h0 := List.mem_takeWhile_imp hx
              simpa using h0
          have htwP : ∀ x ∈ tw, (fun x => !x.isWhitespace) x = true := by
            intro x hx
            rw [htwdef] at hx
            have h0 := List.mem_takeWhile_imp hx
            exact h0
          by_cases hpW : '|' ∈ c :: tw
          · -- Subcase A: the first pipe sits inside W
            have hdwne : (c :: tw).dropWhile (· ≠ '|') ≠ [] := by
              intro h0
              have h1 := (List.dropWhile_eq_nil_iff).mp h0 '|' hpW
              simp at h1
            obtain ⟨d, w2, hw2⟩ : ∃ d w2, (c :: tw).dropWhile (· ≠ '|') = d :: w2 := by
              cases h : (c :: tw).dropWhile (· ≠ '|') with
              | nil => exact absurd h hdwne
              | cons d w2 => exact ⟨d, w2, rfl⟩
            have hd : d = '|' := by
              have := dropWhile_head_false hw2
              simpa using this
            subst hd
            have hWdecomp : c :: tw = (c :: tw).takeWhile (· ≠ '|') ++ '|' :: w2 := by
              conv_lhs => rw [← List.takeWhile_append_dropWhile (fun x => decide ¬x = '|') (c :: tw)]
              rw [hw2]
            have hw1nws : ∀ x ∈ (c :: tw).takeWhile (· ≠ '|'), x.isWhitespace = false :=
              fun x hx => hWnws x ((List.takeWhile_sublist _).subset hx)
            have hw1pipe : ∀ x ∈ (c :: tw).takeWhile (· ≠ '|'),
                (fun x => decide ¬x = '|') x = true := by
              intro x hx
              have h0 := List.mem_takeWhile_imp hx
              exact h0
            have hL : dropTrailWs ((collapseWsL (c :: t)).takeWhile (· ≠ '|')) =
                (c :: tw).takeWhile (· ≠ '|') := by
              have hcoll : collapseWsL (c :: t) = joinSpace ((c :: tw) :: splitWs dw) := by
                rw [collapseWsL, hsplit]
              cases hsd : splitWs dw with
              | nil =>
                rw [hcoll, hsd]
                exact dropTrailWs_of_all_nonws hw1nws
              | cons w' ws' =>
                rw [hcoll, hsd]
                rw [show joinSpace ((c :: tw) :: w' :: ws') =
                      (c :: tw) ++ ' ' :: joinSpace (w' :: ws') from rfl]
                conv_lhs => rw [hWdecomp]
                rw [List.append_assoc, List.cons_append,
                  takeWhile_middle hw1pipe (by simp)]
                exact dropTrailWs_of_all_nonws hw1nws
            have hR : collapseWsL ((c :: t).takeWhile (· ≠ '|')) =
                (c :: tw).takeWhile (· ≠ '|') := by
              have htake : (c :: t).takeWhile (· ≠ '|') = (c :: tw).takeWhile (· ≠ '|') := by
                conv_lhs => rw [htdecomp, hWdecomp]
                rw [List.append_assoc, List.cons_append,
                  takeWhile_middle hw1pipe (by simp)]
              rw [htake, collapseWsL, splitWs_all_nonws hw1nws]
              by_cases hE : ((c :: tw).takeWhile (· ≠ '|')).isEmpty = true
              · rw [if_pos hE]
                rw [List.isEmpty_iff.mp hE]
                rfl
              · rw [if_neg hE]
                rfl
            rw [hL, hR]
          · -- Subcase B: W is pipe-free, the pipe lies in dw
            have hWp : ∀ x ∈ c :: tw, (fun x => decide ¬x = '|') x = true := by
              intro x hx
              simp only [decide_eq_true_eq]
              intro h
              subst h
              exact hpW hx
            have hpdw : '|' ∈ dw := by
              have hmem := hp
              rw [htdecomp] at hmem
              rcases List.mem_append.mp hmem with h | h
              · exact absurd h hpW
              · exact h
            obtain ⟨d, t', hdw⟩ : ∃ d t', dw = d :: t' := by
              cases h : dw with
              | nil => rw [h] at hpdw; exact absurd hpdw (List.not_mem_nil _)
              | cons d t' => exact ⟨d, t', rfl⟩
            have hdws : d.isWhitespace = true := by
              have := dropWhile_head_false (hdwdef ▸ hdw)
              simpa using this
            have hdpipe : (fun x => decide ¬x = '|') d = true := by
              simp only [decide_eq_true_eq]
              intro h
              subst h
              exact absurd hdws (by decide)
            have hPd : ¬ ((fun x => !x.isWhitespace) d = true) := by simp [hdws]
            set pre := dw.takeWhile (· ≠ '|') with hpredef
            have hpre : pre = d :: t'.takeWhile (· ≠ '|') := by
              rw [hpredef, hdw, List.takeWhile_cons_of_pos (by exact hdpipe)]
            have hdwlen : dw.length ≤ n :=
              le_trans (List.dropWhile_sublist _).length_le ht
            have hIH : dropTrailWs ((collapseWsL dw).takeWhile (· ≠ '|')) = collapseWsL pre :=
              ih dw hdwlen hpdw
            have hsdne : splitWs dw ≠ [] := by
              obtain ⟨w, hw, _⟩ :=
                exists_word_of_mem (by decide : ('|' : Char).isWhitespace = false) dw [] hpdw
              exact List.ne_nil_of_mem hw
            obtain ⟨w', ws', hsd⟩ : ∃ w' ws', splitWs dw = w' :: ws' := by
              cases h : splitWs dw with
              | nil => exact absurd h hsdne
              | cons w' ws' => exact ⟨w', ws', rfl⟩
            have hcoll : collapseWsL (c :: t) = (c :: tw) ++ ' ' :: collapseWsL dw := by
              rw [collapseWsL, hsplit, hsd,
                show joinSpace ((c :: tw) :: w' :: ws') =
                  (c :: tw) ++ ' ' :: joinSpace (w' :: ws') from rfl,
                collapseWsL, hsd]
            -- the collapsed prefix-to-pipe of the whole list
            have hLdrop : dropTrailWs ((collapseWsL (c :: t)).takeWhile (· ≠ '|')) =
                if collapseWsL pre = [] then c :: tw
                else (c :: tw) ++ ' ' :: collapseWsL pre := by
              rw [hcoll, List.takeWhile_append_of_pos hWp,
                List.takeWhile_cons_of_pos (by simp), dropTrailWs_append]
              have h2 := dropTrailWs_append [' ']
                ((collapseWsL dw).takeWhile (· ≠ '|'))
              rw [show ([' '] ++ (collapseWsL dw).takeWhile (· ≠ '|')) =
                    ' ' :: (collapseWsL dw).takeWhile (· ≠ '|') from rfl] at h2
              rw [h2, hIH]
              have hW : dropTrailWs (c :: tw) = c :: tw := dropTrailWs_of_all_nonws hWnws
              by_cases hnil : collapseWsL pre = []
              · rw [if_pos hnil]
                rw [show dropTrailWs [' '] = [] from rfl]
                rw [if_pos rfl, hW, if_pos hnil]
              · rw [if_neg hnil, if_neg (by simp), if_neg hnil]
                rfl
            -- the right-hand side
            have hRtake : (c :: t).takeWhile (· ≠ '|') = (c :: tw) ++ pre := by
              conv_lhs => rw [htdecomp]
              rw [List.takeWhile_append_of_pos hWp]
            have hsplitR : splitWs ((c :: tw) ++ pre) = (c :: tw) :: splitWs pre := by
              rw [show (c :: tw) ++ pre = c :: (tw ++ pre) from rfl, splitWs_cons_word hws']
              have htake2 : (tw ++ pre).takeWhile (fun x => !x.isWhitespace) = tw := by
                rw [List.takeWhile_append_of_pos htwP, hpre,
                  List.takeWhile_cons_of_neg (by exact hPd), List.append_nil]
              have hdrop2 : (tw ++ pre).dropWhile (fun x => !x.isWhitespace) = pre := by
                rw [List.dropWhile_append]
                rw [if_pos (by rw [List.dropWhile_eq_nil_iff.mpr htwP]; rfl)]
                rw [hpre, List.dropWhile_cons_of_neg (by exact hPd)]
              rw [htake2, hdrop2]
            rw [hLdrop, hRtake,
              show collapseWsL (c :: tw ++ pre) = joinSpace ((c :: tw) :: splitWs pre) by
                rw [collapseWsL, hsplitR]]
            cases hsp : splitWs pre with
            | nil =>
              have hnil : collapseWsL pre = [] := by rw [collapseWsL, hsp]; rfl
              rw [if_pos hnil]
              rfl
            | cons pw pws =>
              have hnenil : collapseWsL pre ≠ [] := by
                rw [collapseWsL, hsp]
                intro h0
                rcases joinSpace_eq_nil_iff.mp h0 with h1 | h1
                · exact absurd h1 (by simp)
                · have : pw = [] := by
                    injection h1
                  have hpwmem : pw ∈ splitWs pre := by rw [hsp]; exact List.mem_cons_self _ _
                  exact ne_nil_of_mem_splitWsAux pre [] hpwmem this
              rw [if_neg hnenil]
              rw [show joinSpace ((c :: tw) :: pw :: pws) =
                    (c :: tw) ++ ' ' :: joinSpace (pw :: pws) from rfl]
              rw [show collapseWsL pre = joinSpace (pw :: pws) by rw [collapseWsL, hsp]]
  intro l hp
  exact main l.length l le_rfl hp

/-- **C10.**  For every title containing `|` anywhere, `clean_title`
removes everything from the first `|` (and any whitespace before it) to
the end of the string — cleaning the whole title equals cleaning only
the part before the first pipe — so interior text after a mid-title
pipe is lost, and for example "A | B | C" becomes "A". -/
theorem claim10_pipe_removes_rest (t : String) (hp : t.data.contains '|' = true) :
    clean_title t = clean_title ⟨t.data.takeWhile (· ≠ '|')⟩ ∧
    clean_title "A | B | C" = "A" := by
  constructor
  · have hp' : '|' ∈ t.data := by simpa [List.elem_iff] using hp
    have hmem : '|' ∈ collapseWsL t.data := by
      obtain ⟨w, hw, hcw⟩ :=
        exists_word_of_mem (by decide : ('|' : Char).isWhitespace = false) t.data [] hp'
      exact mem_joinSpace_of_mem hw hcw
    have hnot : ¬ ('|' ∈ collapseWsL (t.data.takeWhile (· ≠ '|'))) := by
      intro h0
      rcases eq_space_or_exists_of_mem_joinSpace h0 with h1 | ⟨w, hw, hcw⟩
      · exact absurd h1 (by decide)
      · rcases mem_cur_or_mem_of_mem_splitWsAux _ [] hw hcw with h2 | h2
        · exact absurd h2 (List.not_mem_nil _)
        · have h3 := List.mem_takeWhile_imp h2
          simp at h3
    have hkey := collapse_takeWhile_pipe t.data hp'
    simp only [clean_title, collapseWs, dropPipeSuffix]
    rw [if_pos (by simpa [List.elem_iff] using hmem),
      if_neg (by simpa [List.elem_iff] using hnot)]
    refine congrArg (fun l => (⟨stripL (dropMonthYearSuffix l).data⟩ : String)) ?_
    exact congrArg String.mk hkey
  · decide

/-- Concrete instantiation of the C10 theorem at "A | B | C". -/
theorem claim10_witness :
    ("A | B | C" : String).data.contains '|' = true ∧
    clean_title "A | B | C" =
      clean_title ⟨("A | B | C" : String).data.takeWhile (· ≠ '|')⟩ ∧
    clean_title "A | B | C" = "A" := by
  have h := claim10_pipe_removes_rest "A | B | C" (by decide)
  exact ⟨by decide, h.1, h.2⟩

end Curation
